import Mathlib

/-!
Verification of the core RAG pipeline of the "Chat with CVs" repository:
the chunker (`ingest.py`), the retriever, context builder, generator prompt
assembly and orchestrator (`chat.py`), with the configuration constants of
`clients.py`.

Strings of the Python source are modelled as `List Char`; Python's signed
slice / `str.rfind` index arithmetic is modelled over `Int` exactly as the
CPython semantics prescribe (negative indices count from the end and are
clamped at 0).  The external services (Qdrant search, the embedding model,
Gemini) are opaque function parameters, as the spec treats them.
-/

set_option maxRecDepth 100000

namespace ChatWithCVs

/-- Configuration constant `CHUNK_SIZE = 500` from `clients.py`. -/
def CHUNK_SIZE : Nat := 500

/-- Configuration constant `CHUNK_OVERLAP = 100` from `clients.py`. -/
def CHUNK_OVERLAP : Nat := 100

/-- Configuration constant `TOP_K = 5` from `chat.py`. -/
def TOP_K : Nat := 5

/-- Configuration constant `SCORE_THRESHOLD = 0.3` from `chat.py`. -/
def SCORE_THRESHOLD : ℚ := 3 / 10

/-- Python slice-index normalisation for a sequence of length `n`: a negative
index counts from the end of the sequence, and the result is clamped to
`[0, n]`.  This is the rule CPython applies to the bounds of `s[a:b]` and to
the `start`/`end` arguments of `str.rfind`. -/
def pynorm (n : Nat) (i : Int) : Nat :=
  if i < 0 then (max (n + i) 0).toNat else min i.toNat n

/-- Python slice `s[a:b]` on a list, with signed bounds. -/
def pyslice (s : List Char) (a b : Int) : List Char :=
  (s.take (pynorm s.length b)).drop (pynorm s.length a)

/-- Python whitespace predicate used by `str.strip()` (ASCII part:
space, tab, newline, carriage return, vertical tab, form feed). -/
def isPySpace (c : Char) : Bool :=
  c = ' ' || c = '\t' || c = '\n' || c = '\r' || c = '\x0b' || c = '\x0c'

/-- Python `str.strip()`: drop leading and trailing whitespace. -/
def pstrip (s : List Char) : List Char :=
  ((s.dropWhile isPySpace).reverse.dropWhile isPySpace).reverse

/-- Python `s.rfind(c, a, b)` for a single character `c`: the largest index
`i` with `norm a ≤ i < norm b` and `s[i] = c`, or `-1` when there is none. -/
def rfindChar (s : List Char) (c : Char) (a b : Int) : Int :=
  match ((List.range (pynorm s.length b)).filter
      (fun i => decide (pynorm s.length a ≤ i) && (s.getD i ' ' == c))).getLast? with
  | some i => (i : Int)
  | none => -1

/-- The actual end of the chunk starting at `start`, from `chunk_text` in
`ingest.py`: tentatively `start + CHUNK_SIZE`; if that falls before the end
of the text, the last newline in `[start, start + CHUNK_SIZE)` (Python
`text.rfind("\n", start, end)`) replaces it whenever that newline's index
compares greater than `start` (`if bp > start`). -/
def chunkEnd (text : List Char) (start : Int) : Int :=
  let e0 : Int := start + (CHUNK_SIZE : Int)
  if e0 < (text.length : Int) then
    let bp := rfindChar text '\n' start e0
    if start < bp then bp else e0
  else e0

/-- The `while start < len(text)` loop of `chunk_text` (`ingest.py`), with
explicit fuel: each iteration slices `text[start:end]`, strips it, keeps it
when non-empty, and advances `start` to `end - CHUNK_OVERLAP`.  `none` means
the fuel ran out before the loop condition failed (the Python loop is not
guaranteed to terminate). -/
def chunkLoop (text : List Char) : Nat → Int → Option (List (List Char))
  | 0, _ => none
  | f + 1, start =>
    if start < (text.length : Int) then
      match chunkLoop text f (chunkEnd text start - (CHUNK_OVERLAP : Int)) with
      | none => none
      | some rest =>
        let chunk := pstrip (pyslice text start (chunkEnd text start))
        some (if chunk.isEmpty then rest else chunk :: rest)
    else some []

/-- `chunk_text` from `ingest.py`.  A terminating run of the Python loop
visits pairwise distinct values of `start`, all lying in `[-101, len)`,
so `len + 103` units of fuel suffice for every terminating run; `none`
therefore means the Python call diverges. -/
def chunk_text (text : List Char) : Option (List (List Char)) :=
  chunkLoop text (text.length + 103) 0

/-- Instrumented variant of the `chunk_text` loop recording the visited raw
segments `(start, end)` instead of the chunk strings. -/
def chunkSegs (text : List Char) : Nat → Int → Option (List (Int × Int))
  | 0, _ => none
  | f + 1, start =>
    if start < (text.length : Int) then
      match chunkSegs text f (chunkEnd text start - (CHUNK_OVERLAP : Int)) with
      | none => none
      | some rest => some ((start, chunkEnd text start) :: rest)
    else some []

/-- The segments visited by `chunk_text text`. -/
def chunk_segs (text : List Char) : Option (List (Int × Int)) :=
  chunkSegs text (text.length + 103) 0

/-- The chunk strings determined by a list of raw segments: slice, strip,
and keep the non-empty results, in order. -/
def segChunks (text : List Char) (segs : List (Int × Int)) : List (List Char) :=
  (segs.map (fun p => pstrip (pyslice text p.1 p.2))).filter (fun c => !c.isEmpty)

/-- A 551-character text on which the `chunk_text` loop never terminates:
100 `x`s, a newline, 450 `y`s.  The last newline of the first window
`[0, 500)` sits at index `100 = start + CHUNK_OVERLAP`, so the loop sets
`end = 100` and advances `start` from `0` to `100 - 100 = 0` again. -/
def badText : List Char := List.replicate 100 'x' ++ '\n' :: List.replicate 450 'y'

theorem chunkEnd_badText_step : chunkEnd badText 0 - (CHUNK_OVERLAP : Int) = 0 := by decide

theorem chunkLoop_badText_stuck : ∀ f, chunkLoop badText f 0 = none := by
  intro f
  induction f with
  | zero => rfl
  | succ n ih =>
    rw [chunkLoop, if_pos (by decide : (0 : Int) < (badText.length : Int)),
      chunkEnd_badText_step, ih]

/-- C1: the spec claims that for every input text (with the configured
`CHUNK_SIZE = 500 > CHUNK_OVERLAP = 100 ≥ 0`) the `chunk_text` loop reaches
`start ≥ len(text)` after finitely many iterations.  The code violates this:
on `badText` the loop re-visits `start = 0` forever (the newline break point
sits exactly `CHUNK_OVERLAP` past `start`), so for every amount of fuel the
loop is still running. -/
theorem chunk_text_diverges_on_badText :
    chunk_text badText = none ∧ ∀ f, chunkLoop badText f 0 = none :=
  ⟨chunkLoop_badText_stuck _, chunkLoop_badText_stuck⟩

/-- A 550-character text on which `chunk_text` terminates but loses text:
99 `a`s, a newline, 100 `b`s, one `Q`, 349 `c`s.  The first window breaks at
the newline (index 99), so the next start is `99 - 100 = -1`; Python then
evaluates `text.rfind("\n", -1, 499)` over the empty normalised range
`[549, 499)`, keeps `end = 499`, and slices `text[-1:499]`, which is empty —
the characters at indices `99..398`, among them the `Q`, are never emitted. -/
def skipText : List Char :=
  List.replicate 99 'a' ++ '\n' :: (List.replicate 100 'b' ++ 'Q' :: List.replicate 349 'c')

/-- C5: the spec claims every non-whitespace character of the input appears
in some emitted chunk.  On `skipText` the code terminates with two chunks,
`'a'*99` and `'c'*151`, and the non-whitespace character `Q` of the input
appears in neither: 201 characters of the text are silently dropped. -/
theorem chunk_text_skips_characters :
    chunk_text skipText = some [List.replicate 99 'a', List.replicate 151 'c'] ∧
    'Q' ∈ skipText ∧ isPySpace 'Q' = false ∧
    ∀ c ∈ [List.replicate 99 'a', List.replicate 151 'c'], 'Q' ∉ c :=
  ⟨rfl, by decide, rfl, by decide⟩

example : chunk_text [] = some [] := rfl
example : chunk_text ['a'] = some [['a']] := rfl
example : chunk_segs ['a'] = some [((0 : Int), (500 : Int))] := rfl
example : chunk_segs (List.replicate 450 'x') =
    some [((0 : Int), (500 : Int)), ((400 : Int), (900 : Int))] := rfl

theorem pynorm_le (n : Nat) (i : Int) : pynorm n i ≤ n := by
  unfold pynorm; split_ifs <;> omega

theorem pynorm_sub_le (n : Nat) {a b : Int} (h : 0 ≤ a → 0 ≤ b) :
    pynorm n b - pynorm n a ≤ (b - a).toNat := by
  unfold pynorm; split_ifs <;> omega

theorem pynorm_le_of_nonneg (n : Nat) {i : Int} (h : 0 ≤ i) : (pynorm n i : Int) ≤ i := by
  unfold pynorm; split_ifs <;> omega

theorem pyslice_length (s : List Char) (a b : Int) :
    (pyslice s a b).length = pynorm s.length b - pynorm s.length a := by
  have hb := pynorm_le s.length b
  simp only [pyslice, List.length_drop, List.length_take]
  omega

theorem length_dropWhile_le (p : Char → Bool) (l : List Char) :
    (l.dropWhile p).length ≤ l.length := by
  induction l with
  | nil => simp [List.dropWhile]
  | cons a t ih =>
    by_cases h : p a <;> simp [List.dropWhile_cons, h] <;> omega

theorem pstrip_length_le (s : List Char) : (pstrip s).length ≤ s.length := by
  have h1 := length_dropWhile_le isPySpace s
  have h2 := length_dropWhile_le isPySpace (s.dropWhile isPySpace).reverse
  simp only [pstrip, List.length_reverse] at *
  omega

theorem rfindChar_cases (s : List Char) (c : Char) (a b : Int) :
    rfindChar s c a b = -1 ∨
      (0 ≤ rfindChar s c a b ∧ rfindChar s c a b < (pynorm s.length b : Int)) := by
  unfold rfindChar
  rcases h : ((List.range (pynorm s.length b)).filter
      (fun i => decide (pynorm s.length a ≤ i) && (s.getD i ' ' == c))).getLast? with _ | i
  · exact Or.inl rfl
  · right
    obtain ⟨hne, heq⟩ := List.mem_getLast?_eq_getLast (x := i) h
    have hmem : i ∈ (List.range (pynorm s.length b)).filter
        (fun i => decide (pynorm s.length a ≤ i) && (s.getD i ' ' == c)) :=
      heq ▸ List.getLast_mem hne
    have hrange := List.mem_range.mp (List.mem_filter.mp hmem).1
    refine ⟨?_, ?_⟩
    · show (0 : Int) ≤ (i : Int)
      omega
    · show ((i : Nat) : Int) < (pynorm s.length b : Int)
      omega

theorem chunkEnd_le (text : List Char) {start : Int} (h : -500 ≤ start) :
    chunkEnd text start ≤ start + (CHUNK_SIZE : Int) := by
  simp only [chunkEnd]
  have hn := pynorm_le_of_nonneg (i := start + (CHUNK_SIZE : Int)) text.length
    (by simp only [CHUNK_SIZE]; omega)
  rcases rfindChar_cases text '\n' start (start + (CHUNK_SIZE : Int)) with hr | ⟨hr0, hrlt⟩ <;>
    split_ifs <;> simp only [CHUNK_SIZE] at * <;> omega

theorem chunkEnd_ge (text : List Char) {start : Int} (h : -101 ≤ start) :
    -1 ≤ chunkEnd text start := by
  simp only [chunkEnd]
  rcases rfindChar_cases text '\n' start (start + (CHUNK_SIZE : Int)) with hr | ⟨hr0, _⟩ <;>
    split_ifs <;> simp only [CHUNK_SIZE] at * <;> omega

theorem chunkEnd_nonneg (text : List Char) {start : Int} (h : 0 ≤ start) :
    0 ≤ chunkEnd text start := by
  simp only [chunkEnd]
  rcases rfindChar_cases text '\n' start (start + (CHUNK_SIZE : Int)) with hr | ⟨hr0, _⟩ <;>
    split_ifs <;> simp only [CHUNK_SIZE] at * <;> omega

theorem chunk_step_length_le (text : List Char) {start : Int} (h : -101 ≤ start) :
    (pstrip (pyslice text start (chunkEnd text start))).length ≤ CHUNK_SIZE := by
  have h1 := pstrip_length_le (pyslice text start (chunkEnd text start))
  have h2 := pyslice_length text start (chunkEnd text start)
  have h3 := pynorm_sub_le text.length (a := start) (b := chunkEnd text start)
    (fun hs => chunkEnd_nonneg text hs)
  have h4 := chunkEnd_le text (show -500 ≤ start by omega)
  simp only [CHUNK_SIZE] at *
  omega

theorem chunkLoop_length_le (text : List Char) :
    ∀ (f : Nat) (start : Int) (cs : List (List Char)), -101 ≤ start →
      chunkLoop text f start = some cs → ∀ c ∈ cs, c.length ≤ CHUNK_SIZE := by
  intro f
  induction f with
  | zero => intro start cs _ h; exact absurd h (by simp [chunkLoop])
  | succ n ih =>
    intro start cs hs h
    rw [chunkLoop] at h
    split_ifs at h with hlt
    · rcases hrec : chunkLoop text n (chunkEnd text start - (CHUNK_OVERLAP : Int)) with _ | rest
      · rw [hrec] at h; exact absurd h (by simp)
      · rw [hrec] at h
        simp only [Option.some.injEq] at h
        have hs' : -101 ≤ chunkEnd text start - (CHUNK_OVERLAP : Int) := by
          have := chunkEnd_ge text hs
          simp only [CHUNK_OVERLAP]
          omega
        have hrest := ih _ _ hs' hrec
        intro c hc
        rw [← h] at hc
        split_ifs at hc
        · exact hrest c hc
        · rcases List.mem_cons.mp hc with hc | hc
          · rw [hc]; exact chunk_step_length_le text hs
          · exact hrest c hc
    · simp only [Option.some.injEq] at h
      rw [← h]
      intro c hc
      exact absurd hc (List.not_mem_nil c)

theorem chunkLoop_ne_nil (text : List Char) :
    ∀ (f : Nat) (start : Int) (cs : List (List Char)),
      chunkLoop text f start = some cs → ∀ c ∈ cs, c ≠ [] := by
  intro f
  induction f with
  | zero => intro start cs h; exact absurd h (by simp [chunkLoop])
  | succ n ih =>
    intro start cs h
    rw [chunkLoop] at h
    split_ifs at h with hlt
    · rcases hrec : chunkLoop text n (chunkEnd text start - (CHUNK_OVERLAP : Int)) with _ | rest
      · rw [hrec] at h; exact absurd h (by simp)
      · rw [hrec] at h
        simp only [Option.some.injEq] at h
        have hrest := ih _ _ hrec
        intro c hc
        rw [← h] at hc
        split_ifs at hc with hemp
        · exact hrest c hc
        · rcases List.mem_cons.mp hc with hc | hc
          · rw [hc]
            intro hnil
            exact hemp (by rw [hnil]; rfl)
          · exact hrest c hc
    · simp only [Option.some.injEq] at h
      rw [← h]
      intro c hc
      exact absurd hc (List.not_mem_nil c)

/-- C7: every chunk in a sequence returned by `chunk_text` is a non-empty
string, and the empty text yields the empty sequence. -/
theorem chunk_text_chunks_nonempty :
    ∀ (text : List Char) (cs : List (List Char)), chunk_text text = some cs →
      (∀ c ∈ cs, c ≠ []) ∧ (text = [] → cs = []) := by
  intro text cs h
  refine ⟨chunkLoop_ne_nil text _ _ _ h, ?_⟩
  intro he
  subst he
  have : chunk_text [] = some [] := rfl
  rw [this] at h
  exact (Option.some.injEq _ _ ▸ h).symm

theorem chunk_text_chunks_nonempty_witness :
    chunk_text ['a'] = some [['a']] ∧
      ((∀ c ∈ [['a']], c ≠ ([] : List Char)) ∧ (['a'] = [] → [['a']] = [])) :=
  ⟨rfl, chunk_text_chunks_nonempty ['a'] [['a']] rfl⟩

/-- C9: `chunk_text` is deterministic — two calls on equal texts (with the
fixed configured parameters) yield identical chunk sequences. -/
theorem chunk_text_deterministic :
    ∀ (t₁ t₂ : List Char), t₁ = t₂ → chunk_text t₁ = chunk_text t₂ := by
  intro t₁ t₂ h
  rw [h]

theorem chunk_text_deterministic_witness :
    ['a'] = ['a'] ∧ chunk_text ['a'] = chunk_text ['a'] :=
  ⟨rfl, chunk_text_deterministic ['a'] ['a'] rfl⟩

/-- C10: every chunk produced by `chunk_text` has at most `CHUNK_SIZE = 500`
characters: the visited starts all satisfy `start ≥ -101`, and from such a
start the sliced window never spans more than 500 characters. -/
theorem chunk_text_length_le :
    ∀ (text : List Char) (cs : List (List Char)), chunk_text text = some cs →
      ∀ c ∈ cs, c.length ≤ CHUNK_SIZE :=
  fun text cs h => chunkLoop_length_le text _ 0 cs (by omega) h

theorem chunk_text_length_le_witness :
    chunk_text ['a'] = some [['a']] ∧ ∀ c ∈ [['a']], c.length ≤ CHUNK_SIZE :=
  ⟨rfl, chunk_text_length_le ['a'] [['a']] rfl⟩

theorem chunkSegs_chain (text : List Char) :
    ∀ (f : Nat) (start : Int) (segs : List (Int × Int)),
      chunkSegs text f start = some segs →
      segs.Chain' (fun p q => q.1 = p.2 - (CHUNK_OVERLAP : Int)) ∧
        ∀ q ∈ segs.head?, q.1 = start := by
  intro f
  induction f with
  | zero => intro start segs h; exact absurd h (by simp [chunkSegs])
  | succ n ih =>
    intro start segs h
    rw [chunkSegs] at h
    split_ifs at h with hlt
    · rcases hrec : chunkSegs text n (chunkEnd text start - (CHUNK_OVERLAP : Int)) with _ | rest
      · rw [hrec] at h; exact absurd h (by simp)
      · rw [hrec] at h
        simp only [Option.some.injEq] at h
        obtain ⟨hch, hhd⟩ := ih _ _ hrec
        rw [← h]
        refine ⟨List.chain'_cons'.mpr ⟨?_, hch⟩, ?_⟩
        · intro q hq
          exact hhd q hq
        · intro q hq
          simp only [List.head?_cons, Option.mem_def, Option.some.injEq] at hq
          rw [← hq]
    · simp only [Option.some.injEq] at h
      rw [← h]
      exact ⟨List.chain'_nil, fun q hq => absurd hq (by simp)⟩

/-- C6: consecutive segments visited by `chunk_text` overlap by at most
`CHUNK_OVERLAP = 100` characters of the original text; in particular this
holds for every step in which no newline adjustment occurred (the tentative
end `start + CHUNK_SIZE` was used as the actual end). -/
theorem chunk_overlap_le :
    ∀ (text : List Char) (segs : List (Int × Int)) (i : Nat),
      chunk_segs text = some segs → i + 1 < segs.length →
      (segs.getD i (0, 0)).2 = (segs.getD i (0, 0)).1 + (CHUNK_SIZE : Int) →
      min (segs.getD i (0, 0)).2 (segs.getD (i + 1) (0, 0)).2 -
          max (segs.getD i (0, 0)).1 (segs.getD (i + 1) (0, 0)).1 ≤
        (CHUNK_OVERLAP : Int) := by
  intro text segs i h hi _
  obtain ⟨hch, -⟩ := chunkSegs_chain text _ _ _ h
  have hrel := List.chain'_iff_get.mp hch i (by omega)
  rw [← List.getD_eq_get segs (0, 0) (show i + 1 < segs.length from hi),
    ← List.getD_eq_get segs (0, 0) (show i < segs.length by omega)] at hrel
  simp only [CHUNK_OVERLAP] at *
  omega

theorem chunk_overlap_le_witness :
    chunk_segs (List.replicate 450 'x') =
        some [((0 : Int), (500 : Int)), ((400 : Int), (900 : Int))] ∧
      0 + 1 < [((0 : Int), (500 : Int)), ((400 : Int), (900 : Int))].length ∧
      ([((0 : Int), (500 : Int)), ((400 : Int), (900 : Int))].getD 0 (0, 0)).2 =
        ([((0 : Int), (500 : Int)), ((400 : Int), (900 : Int))].getD 0 (0, 0)).1 +
          (CHUNK_SIZE : Int) ∧
      min ([((0 : Int), (500 : Int)), ((400 : Int), (900 : Int))].getD 0 (0, 0)).2
          ([((0 : Int), (500 : Int)), ((400 : Int), (900 : Int))].getD 1 (0, 0)).2 -
        max ([((0 : Int), (500 : Int)), ((400 : Int), (900 : Int))].getD 0 (0, 0)).1
          ([((0 : Int), (500 : Int)), ((400 : Int), (900 : Int))].getD 1 (0, 0)).1 ≤
        (CHUNK_OVERLAP : Int) :=
  ⟨rfl, by decide, by decide,
    chunk_overlap_le (List.replicate 450 'x') _ 0 rfl (by decide) (by decide)⟩

/-- A point returned by the Qdrant search in `retrieve`: the stored payload
fields together with the raw similarity score (modelled as an exact
rational). -/
structure ScoredPoint where
  text : String
  candidate : String
  filename : String
  chunk_index : Nat
  score : ℚ

/-- The retrieval-hit dict built by `retrieve` in `chat.py`. -/
structure Hit where
  text : String
  candidate : String
  filename : String
  chunk_index : Nat
  score : ℚ

/-- Python `round(h.score, 3)` on an exact rational score: round to the
nearest multiple of `1/1000` (the tie-breaking convention is irrelevant to
the stated properties). -/
def round3 (x : ℚ) : ℚ := (round (1000 * x) : ℤ) / 1000

/-- `retrieve` from `chat.py`: embed the question, search the vector store
with `TOP_K` and `SCORE_THRESHOLD`, and map each returned point's payload
fields plus the rounded score into a hit.  The external search and the
embedding model are opaque function parameters. -/
def retrieve (search : List ℚ → Nat → ℚ → List ScoredPoint)
    (embed_query : String → List ℚ) (question : String) : List Hit :=
  (search (embed_query question) TOP_K SCORE_THRESHOLD).map
    (fun h => ⟨h.text, h.candidate, h.filename, h.chunk_index, round3 h.score⟩)

/-- One step of the `by_candidate.setdefault(c["candidate"], []).append(c)`
loop of `build_context`: append the hit to its candidate's bucket, keeping
buckets in first-insertion order (Python dicts preserve insertion order). -/
def insertHit : List (String × List Hit) → Hit → List (String × List Hit)
  | [], h => [(h.candidate, [h])]
  | (k, items) :: rest, h =>
    if k = h.candidate then (k, items ++ [h]) :: rest else (k, items) :: insertHit rest h

/-- The insertion-ordered `by_candidate` grouping of `build_context`. -/
def groupByCandidate (chunks : List Hit) : List (String × List Hit) :=
  chunks.foldl insertHit []

/-- Python `'='*50`. -/
def sep50 : String := String.mk (List.replicate 50 '=')

/-- The labeled section header emitted by `build_context` for a candidate. -/
def candidateHeader (candidate : String) : String :=
  sep50 ++ "\nCANDIDATE: " ++ candidate ++ "\n" ++ sep50

/-- The `parts` list accumulated by `build_context`: for every candidate, a
header followed by each of its hits' texts, each followed by a blank part. -/
def contextParts (groups : List (String × List Hit)) : List String :=
  groups.bind (fun p => candidateHeader p.1 :: p.2.bind (fun item => [item.text, ""]))

/-- `build_context` from `chat.py`: group hits by candidate into labeled
sections and join all parts with newlines. -/
def build_context (chunks : List Hit) : String :=
  String.intercalate "\n" (contextParts (groupByCandidate chunks))

/-- The order in which distinct keys first appear in a list — the iteration
order of an insertion-ordered dict keyed by these keys. -/
def firstSeen (l : List String) : List String :=
  l.foldl (fun ks k => if k ∈ ks then ks else ks ++ [k]) []

theorem insertHit_keys (acc : List (String × List Hit)) (h : Hit) :
    (insertHit acc h).map Prod.fst =
      if h.candidate ∈ acc.map Prod.fst then acc.map Prod.fst
      else acc.map Prod.fst ++ [h.candidate] := by
  induction acc with
  | nil => simp [insertHit]
  | cons q rest ih =>
    obtain ⟨k, items⟩ := q
    by_cases hk : k = h.candidate
    · simp [insertHit, hk]
    · simp only [insertHit, if_neg hk, List.map_cons, ih, List.mem_cons]
      have : ¬h.candidate = k := fun he => hk he.symm
      split_ifs with h1 h2 h3 <;> simp_all

theorem foldl_insertHit_keys (hits : List Hit) :
    ∀ acc : List (String × List Hit),
      (hits.foldl insertHit acc).map Prod.fst =
        (hits.map Hit.candidate).foldl
          (fun ks k => if k ∈ ks then ks else ks ++ [k]) (acc.map Prod.fst) := by
  induction hits with
  | nil => intro acc; simp
  | cons h t ih =>
    intro acc
    simp only [List.foldl_cons, List.map_cons]
    rw [ih, insertHit_keys]

theorem groupByCandidate_keys (hits : List Hit) :
    (groupByCandidate hits).map Prod.fst = firstSeen (hits.map Hit.candidate) := by
  simpa [groupByCandidate, firstSeen] using foldl_insertHit_keys hits []

theorem firstSeen_aux_nodup (l : List String) :
    ∀ acc : List String, acc.Nodup →
      (l.foldl (fun ks k => if k ∈ ks then ks else ks ++ [k]) acc).Nodup := by
  induction l with
  | nil => intro acc h; simpa
  | cons k t ih =>
    intro acc h
    simp only [List.foldl_cons]
    apply ih
    split_ifs with hk
    · exact h
    · rw [List.nodup_append]
      exact ⟨h, List.nodup_singleton k, fun a ha hb => hk (by simp at hb; rw [← hb]; exact ha)⟩

theorem firstSeen_aux_mem (x : String) (l : List String) :
    ∀ acc : List String,
      (x ∈ l.foldl (fun ks k => if k ∈ ks then ks else ks ++ [k]) acc ↔ x ∈ acc ∨ x ∈ l) := by
  induction l with
  | nil => intro acc; simp
  | cons k t ih =>
    intro acc
    simp only [List.foldl_cons, ih, List.mem_cons]
    by_cases hk : k ∈ acc
    · simp only [if_pos hk]
      constructor
      · rintro (h | h) <;> tauto
      · rintro (h | h | h)
        · tauto
        · rw [h]; tauto
        · tauto
    · simp only [if_neg hk, List.mem_append, List.mem_singleton]
      tauto

theorem insertHit_sections (acc : List (String × List Hit)) (h : Hit)
    (hacc : ∀ p ∈ acc, ∀ x ∈ p.2, x.candidate = p.1) :
    ∀ p ∈ insertHit acc h, ∀ x ∈ p.2, x.candidate = p.1 := by
  induction acc with
  | nil =>
    intro p hp x hx
    simp only [insertHit, List.mem_singleton] at hp
    rw [hp] at hx ⊢
    simp only [List.mem_singleton] at hx
    rw [hx]
  | cons q rest ih =>
    obtain ⟨k, items⟩ := q
    have hq : ∀ x ∈ items, x.candidate = k := fun x hx => hacc (k, items) (by simp) x hx
    have hrest : ∀ p ∈ rest, ∀ x ∈ p.2, x.candidate = p.1 :=
      fun p hp => hacc p (List.mem_cons_of_mem _ hp)
    intro p hp x hx
    by_cases hk : k = h.candidate
    · simp only [insertHit, if_pos hk, List.mem_cons] at hp
      rcases hp with hp | hp
      · rw [hp] at hx ⊢
        simp only [List.mem_append, List.mem_singleton] at hx
        rcases hx with hx | hx
        · exact hq x hx
        · rw [hx, hk]
      · exact hrest p hp x hx
    · simp only [insertHit, if_neg hk, List.mem_cons] at hp
      rcases hp with hp | hp
      · rw [hp] at hx ⊢
        exact hq x hx
      · exact ih hrest p hp x hx

theorem groupByCandidate_sections (hits : List Hit) :
    ∀ p ∈ groupByCandidate hits, ∀ x ∈ p.2, x.candidate = p.1 := by
  suffices H : ∀ acc : List (String × List Hit), (∀ p ∈ acc, ∀ x ∈ p.2, x.candidate = p.1) →
      ∀ p ∈ hits.foldl insertHit acc, ∀ x ∈ p.2, x.candidate = p.1 by
    exact H [] (by simp)
  induction hits with
  | nil => intro acc h; simp only [List.foldl_nil]; exact h
  | cons h t ih => intro acc hacc; exact ih _ (insertHit_sections acc h hacc)

theorem insertHit_bind_perm (acc : List (String × List Hit)) (h : Hit) :
    ((insertHit acc h).bind (fun p => p.2)).Perm (acc.bind (fun p => p.2) ++ [h]) := by
  induction acc with
  | nil => simp [insertHit]
  | cons q rest ih =>
    obtain ⟨k, items⟩ := q
    by_cases hk : k = h.candidate
    · simp only [insertHit, if_pos hk, List.cons_bind, List.append_assoc]
      exact List.Perm.append_left items (List.perm_append_comm)
    · simp only [insertHit, if_neg hk, List.cons_bind, List.append_assoc]
      exact List.Perm.append_left items ih

theorem groupByCandidate_bind_perm (hits : List Hit) :
    ((groupByCandidate hits).bind (fun p => p.2)).Perm hits := by
  suffices H : ∀ acc : List (String × List Hit),
      ((hits.foldl insertHit acc).bind (fun p => p.2)).Perm
        (acc.bind (fun p => p.2) ++ hits) by
    simpa [groupByCandidate] using H []
  induction hits with
  | nil => intro acc; simp
  | cons h t ih =>
    intro acc
    simp only [List.foldl_cons]
    refine (ih (insertHit acc h)).trans ?_
    refine (List.Perm.append_right t (insertHit_bind_perm acc h)).trans ?_
    rw [List.append_assoc, List.singleton_append]

/-- C3: `build_context` groups all hits sharing a candidate name into one
contiguous labeled section: the grouping underlying `build_context` has
pairwise distinct candidate keys, the keys appear in the order candidates
first appear in the input, each section contains exactly hits of its own
candidate, together the sections contain exactly the input hits, and the set
of candidate names of the grouping equals the set of distinct candidate
names of the input. -/
theorem build_context_grouping (hits : List Hit) :
    build_context hits = String.intercalate "\n" (contextParts (groupByCandidate hits)) ∧
    (groupByCandidate hits).map Prod.fst = firstSeen (hits.map Hit.candidate) ∧
    ((groupByCandidate hits).map Prod.fst).Nodup ∧
    (∀ p ∈ groupByCandidate hits, ∀ x ∈ p.2, x.candidate = p.1) ∧
    ((groupByCandidate hits).bind (fun p => p.2)).Perm hits ∧
    ∀ k, (k ∈ (groupByCandidate hits).map Prod.fst ↔ k ∈ hits.map Hit.candidate) := by
  refine ⟨rfl, groupByCandidate_keys hits, ?_, groupByCandidate_sections hits,
    groupByCandidate_bind_perm hits, ?_⟩
  · rw [groupByCandidate_keys hits]
    exact firstSeen_aux_nodup _ [] List.nodup_nil
  · intro k
    rw [groupByCandidate_keys hits]
    unfold firstSeen
    rw [firstSeen_aux_mem k _ []]
    simp

/-- A conversation turn (`{"role": ..., "content": ...}` in `chat.py`). -/
structure Turn where
  role : String
  content : String

/-- `SYSTEM_PROMPT` from `chat.py`. -/
def SYSTEM_PROMPT : String :=
  "You are an expert HR assistant helping a recruiter evaluate candidates.\n\nRules:\n- Answer ONLY from the CV excerpts provided — never invent information\n- Always mention the candidate\x27s name when referencing their data\n- Be concise but complete; use structure when comparing multiple candidates\n- If relevant info is missing from the excerpts, say so clearly\n- End with a short recommendation when the question involves selection or ranking"

/-- The role-tagged line `ask_gemini` renders for one history turn. -/
def turnLine (t : Turn) : String :=
  (if t.role = "user" then "Recruiter" else "Assistant") ++ ": " ++ t.content ++ "\n\n"

/-- Python `l[-n:]`: the final at-most-`n` elements of a list. -/
def lastN (n : Nat) (l : List α) : List α := l.drop (l.length - n)

/-- The `history_text` accumulated by `ask_gemini`: empty when the history is
absent (`None`) or empty (the `if history:` guard), otherwise the
concatenation of the role-tagged lines of the last 4 turns
(`history[-4:]`). -/
def history_text : Option (List Turn) → String
  | none => ""
  | some l => if l.isEmpty then "" else String.join ((lastN 4 l).map turnLine)

/-- The f-string skeleton of the prompt in `ask_gemini`, with the optional
history block `histX` already rendered. -/
def promptAssemble (question context histX : String) : String :=
  SYSTEM_PROMPT ++ "\n\n" ++ histX ++ "\nCV Excerpts:\n" ++ context ++
    "\n\n---\n\nRecruiter question: " ++ question

/-- The full prompt `ask_gemini` composes: the history block is present only
when `history_text` is non-empty. -/
def ask_gemini_prompt (question context : String) (history : Option (List Turn)) : String :=
  promptAssemble question context
    (if history_text history = "" then ""
     else "Previous conversation:\n" ++ history_text history)

/-- `ask_gemini` from `chat.py`: compose the prompt and delegate to the
opaque external model, returning its text verbatim. -/
def ask_gemini (generate : String → String) (question context : String)
    (history : Option (List Turn)) : String :=
  generate (ask_gemini_prompt question context history)

/-- C8: the prompt composed by `ask_gemini` contains at most the last 4
turns of the history — the history block renders `history[-4:]`, a suffix of
at most 4 role-tagged turns — and the block is omitted entirely when the
history is absent or empty. -/
theorem ask_gemini_history_window (question context : String) (l : List Turn) :
    (lastN 4 l).length ≤ 4 ∧
    List.IsSuffix (lastN 4 l) l ∧
    history_text (some l) = String.join ((lastN 4 l).map turnLine) ∧
    ask_gemini_prompt question context none = promptAssemble question context "" ∧
    ask_gemini_prompt question context (some []) = promptAssemble question context "" := by
  refine ⟨?_, List.drop_suffix _ _, ?_, rfl, rfl⟩
  · simp only [lastN, List.length_drop]
    omega
  · by_cases he : l.isEmpty
    · have : l = [] := List.isEmpty_iff.mp he
      rw [this]
      rfl
    · simp [history_text, he]

/-- The fixed fallback answer of `rag` for empty retrieval. -/
def NO_RESULTS_MSG : String :=
  "⚠️ No relevant CV content found. Try rephrasing or index more CVs."

/-- The result dict of `rag`: the answer text and the hits used. -/
structure RagResult where
  answer : String
  chunks : List Hit

/-- `rag` from `chat.py`: retrieve; if no hits, short-circuit with the fixed
fallback answer and no chunks; otherwise build the context and ask the
model. -/
def rag (search : List ℚ → Nat → ℚ → List ScoredPoint) (embed_query : String → List ℚ)
    (generate : String → String) (question : String) (history : Option (List Turn)) :
    RagResult :=
  let chunks := retrieve search embed_query question
  if chunks.isEmpty then ⟨NO_RESULTS_MSG, []⟩
  else ⟨ask_gemini generate question (build_context chunks) history, chunks⟩

/-- C2: whenever retrieval returns no hits, `rag` returns the fixed fallback
answer with an empty chunk list, and the generator is never invoked — the
result does not depend on the generate function at all. -/
theorem rag_short_circuit (search : List ℚ → Nat → ℚ → List ScoredPoint)
    (embed_query : String → List ℚ) (generate : String → String) (question : String)
    (history : Option (List Turn))
    (hr : retrieve search embed_query question = []) :
    rag search embed_query generate question history = ⟨NO_RESULTS_MSG, []⟩ ∧
      ∀ generate' : String → String,
        rag search embed_query generate' question history =
          rag search embed_query generate question history := by
  constructor
  · simp [rag, hr]
  · intro g
    simp [rag, hr]

theorem rag_short_circuit_witness :
    retrieve (fun _ _ _ => []) (fun _ => []) "q" = [] ∧
      (rag (fun _ _ _ => []) (fun _ => []) (fun _ => "") "q" none =
          ⟨NO_RESULTS_MSG, []⟩ ∧
        ∀ generate' : String → String,
          rag (fun _ _ _ => []) (fun _ => []) generate' "q" none =
            rag (fun _ _ _ => []) (fun _ => []) (fun _ => "") "q" none) :=
  ⟨rfl, rag_short_circuit (fun _ _ _ => []) (fun _ => []) (fun _ => "") "q" none rfl⟩

theorem round3_threshold {x : ℚ} (h : SCORE_THRESHOLD ≤ x) : SCORE_THRESHOLD ≤ round3 x := by
  have h1 : ((300 : ℤ) : ℚ) ≤ ((round (1000 * x) : ℤ) : ℚ) := by
    have hm : round ((300 : ℤ) : ℚ) ≤ round (1000 * x) := by
      rw [round_eq, round_eq]
      apply Int.floor_mono
      unfold SCORE_THRESHOLD at h
      push_cast
      linarith
    rw [round_intCast] at hm
    exact_mod_cast hm
  unfold round3 SCORE_THRESHOLD
  push_cast at h1 ⊢
  linarith

/-- C4: provided the underlying vector-store search honors the score
threshold it is passed, no hit returned by `retrieve` has a score below the
configured `SCORE_THRESHOLD` (rounding to 3 decimals preserves the bound
because the threshold is itself a multiple of `1/1000`). -/
theorem retrieve_respects_threshold (search : List ℚ → Nat → ℚ → List ScoredPoint)
    (embed_query : String → List ℚ) (question : String)
    (hs : ∀ (v : List ℚ) (k : Nat) (t : ℚ), ∀ p ∈ search v k t, t ≤ p.score) :
    ∀ r ∈ retrieve search embed_query question, SCORE_THRESHOLD ≤ r.score := by
  intro r hr
  simp only [retrieve, List.mem_map] at hr
  obtain ⟨p, hp, rfl⟩ := hr
  exact round3_threshold (hs _ _ _ p hp)

theorem retrieve_respects_threshold_witness :
    (∀ (v : List ℚ) (k : Nat) (t : ℚ),
        ∀ p ∈ (fun (_ : List ℚ) (_ : Nat) (t : ℚ) =>
          if t ≤ 1 / 2 then [ScoredPoint.mk "t" "c" "f" 0 (1 / 2)] else []) v k t,
          t ≤ p.score) ∧
      ∀ r ∈ retrieve
          (fun (_ : List ℚ) (_ : Nat) (t : ℚ) =>
            if t ≤ 1 / 2 then [ScoredPoint.mk "t" "c" "f" 0 (1 / 2)] else [])
          (fun _ => []) "q",
        SCORE_THRESHOLD ≤ r.score :=
  have hs : ∀ (v : List ℚ) (k : Nat) (t : ℚ),
      ∀ p ∈ (fun (_ : List ℚ) (_ : Nat) (t : ℚ) =>
        if t ≤ 1 / 2 then [ScoredPoint.mk "t" "c" "f" 0 (1 / 2)] else []) v k t,
        t ≤ p.score := by
    intro v k t p hp
    by_cases ht : t ≤ 1 / 2
    · simp only [if_pos ht, List.mem_singleton] at hp
      rw [hp]
      exact ht
    · simp only [if_neg ht, List.not_mem_nil] at hp
  ⟨hs, retrieve_respects_threshold _ (fun _ => []) "q" hs⟩

end ChatWithCVs
